import Mathlib

/-!
# Verification of the floret scan-generation engine

Shallow embedding of `src/floret/__init__.py` over exact rational
arithmetic, together with proofs about the claims of the specification.

Conventions used by the embedding:
* numpy float arrays are modelled as `List ℚ` (exact arithmetic);
* index arrays are `List ℕ`;
* a Python `assert` failure or raised exception is modelled as `none`;
* numpy fancy indexing `a[order]` is `order.map (fun i => a.getD i 0)`;
  every order produced by the engine is a permutation of
  `List.range a.length`, so the default value is never read.
-/

namespace Floret

/-- numpy `arange(lo, hi, s)` for a positive step `s`: the values
`lo + i*s` for `0 ≤ i < ⌈(hi-lo)/s⌉`. -/
def arangeQ (lo hi s : ℚ) : List ℚ :=
  (List.range (⌈(hi - lo) / s⌉.toNat)).map (fun i : ℕ => lo + (i : ℚ) * s)

/-- Tail of `generate_initial_angles` (source lines 59-68): check the
derived range (`assert tilt_angle_min < tilt_angle_max`,
`assert tilt_angle_step > 0`), generate with `arange`, sort with
`np.sort`, and check the bounds.  `angles.min() >= -90` and
`angles.max() < 90` are expressed elementwise; `np.min` and `np.max`
raise on an empty array, hence the emptiness check. -/
def finishAngles (lo hi s : ℚ) : Option (List ℚ) :=
  if lo < hi ∧ 0 < s then
    let angles := List.insertionSort (fun a b => a ≤ b) (arangeQ lo hi s)
    if angles ≠ [] ∧ (∀ a ∈ angles, -90 ≤ a) ∧ (∀ a ∈ angles, a < 90) then
      some angles
    else none
  else none

/-- The largest tilt excursion `max_tilt = min(z - lo, hi - z)` (source
lines 40-42). -/
def maxTilt (z lo hi : ℚ) : ℚ := min (z - lo) (hi - z)

/-- The re-centered minimum `z - s * floor(max_tilt / s)` (source lines
44-47). -/
def stepLo (z lo hi s : ℚ) : ℚ := z - s * (⌊maxTilt z lo hi / s⌋ : ℚ)

/-- The re-centered maximum `z + s * ceil(max_tilt / s)` (source lines
49-52). -/
def stepHi (z lo hi s : ℚ) : ℚ := z + s * (⌈maxTilt z lo hi / s⌉ : ℚ)

/-- Model of `generate_initial_angles` (source lines 5-68).  `num_tilt_angles` is
a count, modelled as `ℕ`.  The four input `assert`s become one guard. -/
def generate_initial_angles (tilt_angle_zero tilt_angle_min tilt_angle_max : ℚ)
    (tilt_angle_step : Option ℚ) (num_tilt_angles : Option ℕ) : Option (List ℚ) :=
  if tilt_angle_min ≤ tilt_angle_zero ∧ tilt_angle_zero ≤ tilt_angle_max ∧
      -90 ≤ tilt_angle_min ∧ tilt_angle_max ≤ 90 then
    match tilt_angle_step, num_tilt_angles with
    | none, none => none
    | some _, some _ => none
    | some s, none =>
        finishAngles (stepLo tilt_angle_zero tilt_angle_min tilt_angle_max s)
          (stepHi tilt_angle_zero tilt_angle_min tilt_angle_max s) s
    | none, some k =>
        finishAngles tilt_angle_min tilt_angle_max
          ((tilt_angle_max - tilt_angle_min) / (k : ℚ))
  else none

/-- Chunking with a fuel argument (structural recursion on the fuel so
that it computes inside `decide`). -/
def chunkFuel (n : ℕ) : ℕ → List α → List (List α)
  | _, [] => []
  | 0, _ => []
  | f + 1, l => l.take n :: chunkFuel n f (l.drop n)

/-- Model of `np.array_split(l, np.arange(n, len(l), n))`: consecutive chunks of
size `n`, the last possibly shorter. -/
def chunkList (n : ℕ) (l : List α) : List (List α) := chunkFuel n l.length l

/-- The `zip_longest` interleaving of two chunk lists, keeping only the
present chunks (source lines 103-105). -/
def interleaveChunks : List (List α) → List (List α) → List (List α)
  | [], ys => ys
  | x :: xs, [] => x :: xs
  | x :: xs, y :: ys => x :: y :: interleaveChunks xs ys

/-- Model of `shuffle_array` (source lines 71-109).  `np.array_split(x, 2)` gives
a first half of `⌈L/2⌉` elements; the trailing `assert len(c) == len(x)`
is kept as a check. -/
def shuffle_array (x : List α) (n : ℕ) : Option (List α) :=
  if 0 < n ∧ n ≤ x.length / 2 then
    let a := x.take ((x.length + 1) / 2)
    let b := x.drop ((x.length + 1) / 2)
    let c := (interleaveChunks (chunkList n a) (chunkList n b.reverse)).flatten
    if c.length = x.length then some c else none
  else none

/-- The sort key `abs(angles[x] - tilt_angle_zero)` of
`generate_dose_symmetric_scan`. -/
def devKey (angles : List ℚ) (z : ℚ) (i : ℕ) : ℚ := |angles.getD i 0 - z|

/-- Python's `sorted` is a stable sort; applied to the strictly
increasing index list `range N` with key `devKey`, its result is the
unique permutation of the indices ordered by the key with ties broken
by the natural index order, i.e. sorted by this lexicographic
relation. -/
def devLex (angles : List ℚ) (z : ℚ) (i j : ℕ) : Prop :=
  devKey angles z i < devKey angles z j ∨
    (devKey angles z i = devKey angles z j ∧ i ≤ j)

instance devLexDec (angles : List ℚ) (z : ℚ) : DecidableRel (devLex angles z) :=
  fun i j => decidable_of_iff
    (devKey angles z i < devKey angles z j ∨
      (devKey angles z i = devKey angles z j ∧ i ≤ j)) Iff.rfl

/-- The loop `for i in range(symmetry - 1): order = shuffle_array(order, 2**i)`,
generalized over the list of batch sizes. -/
def shuffleLoop (batches : List ℕ) (x : List ℕ) : Option (List ℕ) :=
  match batches with
  | [] => some x
  | b :: bs => (shuffle_array x b).bind (shuffleLoop bs)

/-- Model of `generate_dose_symmetric_scan` (source lines 112-148). -/
def generate_dose_symmetric_scan (angles : List ℚ) (symmetry : ℕ)
    (tilt_angle_zero : ℚ) : Option (List ℕ) :=
  let order := List.range angles.length
  if 0 < symmetry then
    shuffleLoop ((List.range (symmetry - 1)).map (fun i => 2 ^ i))
      (List.insertionSort (devLex angles tilt_angle_zero) order)
  else some order

/-- Slice `l[0::n]` with a fuel argument (structural recursion on the fuel). -/
def everyNthFuel (n : ℕ) : ℕ → List α → List α
  | _, [] => []
  | 0, _ => []
  | f + 1, x :: xs => x :: everyNthFuel n f (xs.drop (n - 1))

/-- The Python slice `l[0::n]`. -/
def everyNth (n : ℕ) (l : List α) : List α := everyNthFuel n l.length l

/-- Model of `generate_spiral_scan` (source lines 151-172); `order[i::n]` is
`everyNth n (order.drop i)`. -/
def generate_spiral_scan (angles : List ℚ) (n : ℤ) : List ℕ :=
  let order := List.range angles.length
  if 1 < n then
    ((List.range n.toNat).map (fun i => everyNth n.toNat (order.drop i))).flatten
  else order

/-- The inner `flip_or_not` of `generate_swinging_scan` (source lines
189-193). -/
def flip_or_not (x : List (List ℕ)) (i : ℕ) : List ℕ :=
  if i % 2 = 0 then x.getD (i / 2) []
  else (x.getD (x.length - i / 2 - 1) []).reverse

/-- Model of `generate_swinging_scan` (source lines 175-207). -/
def generate_swinging_scan (angles : List ℚ) (n : ℤ) : List ℕ :=
  let order := List.range angles.length
  if 1 < n then
    let splits := (List.range n.toNat).map
      (fun i => everyNth n.toNat (order.drop i))
    ((List.range n.toNat).map (flip_or_not splits)).flatten
  else order

/-- Model of `generate_initial_positions` (source lines 210-230); the outer
Python loop `range(0, nangles, nhelix)` is `everyNth nhelix (range nangles)`. -/
def generate_initial_positions (nhelix nangles : ℕ) : Option (List ℚ) :=
  if 0 < nhelix ∧ 0 < nangles then
    some (((everyNth nhelix (List.range nangles)).map (fun j =>
      (List.range (min (nangles - j) nhelix)).map
        (fun i : ℕ => (i : ℚ) / (nhelix : ℚ)))).flatten)
  else none

/-- The Python `range(lo, hi)` over integers. -/
def rangeZ (lo hi : ℤ) : List ℤ :=
  (List.range (hi - lo).toNat).map (fun k : ℕ => lo + (k : ℤ))

/-- Model of `generate_shifted_positions` (source lines 233-257).  `np.stack` of
the shifted rows and `np.tile` of the angles build the two grids; the
shape assert reduces to the length check on the rows. -/
def generate_shifted_positions (angles positions : List ℚ)
    (position_min position_max : ℤ) : Option (List (List ℚ) × List (List ℚ)) :=
  if 0 < position_max - position_min then
    let posGrid := (rangeZ position_min position_max).map
      (fun p : ℤ => positions.map (fun q => q + (p : ℚ)))
    let angGrid := (List.range posGrid.length).map (fun _ => angles)
    if angles.length = positions.length then some (angGrid, posGrid) else none
  else none

/-- numpy transpose of a rectangular matrix. -/
def transposeRect (m : List (List ℚ)) : List (List ℚ) :=
  (List.range (m.headD []).length).map (fun j => m.map (fun row => row.getD j 0))

/-- Column slice `m[:, i::2].flatten()` for a rectangular matrix `m`. -/
def sliceCols2 (m : List (List ℚ)) (i : ℕ) : List ℚ :=
  (m.map (fun row => everyNth 2 (row.drop i))).flatten

/-- Model of `generate_final_order` (source lines 260-301).  Any `order_by` other
than `"angle"` takes the plain row-major flatten path. -/
def generate_final_order (angles positions : List (List ℚ)) (order_by : String)
    (interleave_positions : Bool) : List ℚ × List ℚ :=
  if order_by = "angle" then
    let angT := transposeRect angles
    let posT := transposeRect positions
    if interleave_positions then
      (((List.range 2).map (sliceCols2 angT)).flatten,
       ((List.range 2).map (sliceCols2 posT)).flatten)
    else (angT.flatten, posT.flatten)
  else (angles.flatten, positions.flatten)

/-- The inner `get_stepnum` of `generate_scan` (source lines 341-345). -/
def get_stepnum (N : ℕ) (symmetry : ℕ) (stepnum : ℤ) : ℤ :=
  if stepnum = 0 ∧ 0 < symmetry then ((N / 2 ^ (symmetry - 1) : ℕ) : ℤ)
  else stepnum

/-- Model of `generate_scan` (source lines 304-395).  `symmetry : ℕ` encodes the
source's `assert symmetry >= 0`; the reference angle passed to the
dose-symmetric scheme is the middle element `angles[len(angles) // 2]`.
The function returns the pair `(positions, angles)`. -/
def generate_scan (tilt_angle_zero tilt_angle_min tilt_angle_max : ℚ)
    (tilt_angle_step : Option ℚ) (num_tilt_angles : Option ℕ)
    (mode : String) (symmetry : ℕ) (stepnum : ℤ) (nhelix : ℕ)
    (position_min position_max : ℤ) (order_by : String)
    (interleave_positions : Bool) : Option (List ℚ × List ℚ) :=
  if (mode = "symmetric" ∨ mode = "spiral" ∨ mode = "swinging") ∧
      1 ≤ nhelix ∧ 1 ≤ position_max - position_min then
    (generate_initial_angles tilt_angle_zero tilt_angle_min tilt_angle_max
        tilt_angle_step num_tilt_angles).bind (fun angles =>
    (generate_initial_positions nhelix angles.length).bind (fun positions =>
    let stepnum2 := get_stepnum angles.length symmetry stepnum
    (if mode = "symmetric" then
        generate_dose_symmetric_scan angles symmetry
          (angles.getD (angles.length / 2) 0)
      else if mode = "spiral" then some (generate_spiral_scan angles stepnum2)
      else some (generate_swinging_scan angles stepnum2)).bind (fun order =>
    let angles2 := order.map (fun i => angles.getD i 0)
    let positions2 := order.map (fun i => positions.getD i 0)
    (generate_shifted_positions angles2 positions2
        position_min position_max).bind (fun grids =>
    let fo := generate_final_order grids.1 grids.2 order_by interleave_positions
    some (fo.2, fo.1)))))
  else none


open List

/-! ## Basic list lemmas -/

theorem flatten_perm_pointwise {α β : Type} (l : List α) (f g : α → List β)
    (h : ∀ a ∈ l, f a ~ g a) : (l.map f).flatten ~ (l.map g).flatten := by
  induction l with
  | nil => simp
  | cons x xs ih =>
    simp only [List.map_cons, List.flatten_cons]
    exact (h x (by simp)).append (ih (fun a ha => h a (by simp [ha])))

theorem range_map_getD {β : Type} (l : List β) (d : β) :
    (List.range l.length).map (fun j => l.getD j d) = l := by
  induction l with
  | nil => simp
  | cons x xs ih =>
    rw [List.length_cons, List.range_succ_eq_map, List.map_cons, List.map_map]
    simp only [List.getD_cons_zero, Function.comp_def, Nat.succ_eq_add_one,
      List.getD_cons_succ]
    rw [ih]

theorem map_getD_perm {β : Type} {ord : List ℕ} {l : List β} (d : β)
    (h : ord ~ List.range l.length) :
    ord.map (fun i => l.getD i d) ~ l := by
  have := h.map (fun i => l.getD i d)
  rwa [range_map_getD l d] at this

theorem flatten_length_const {β : Type} (m : List (List β)) (k : ℕ)
    (h : ∀ r ∈ m, r.length = k) : m.flatten.length = m.length * k := by
  induction m with
  | nil => simp
  | cons r rs ih =>
    simp only [List.flatten_cons, List.length_append, List.length_cons]
    rw [h r (by simp), ih (fun t ht => h t (by simp [ht]))]
    ring

theorem head?_flatten_of_head? {β : Type} {m : List (List β)} {r : List β}
    (hm : m.head? = some r) (hr : r ≠ []) : m.flatten.head? = r.head? := by
  obtain ⟨v, vs, rfl⟩ := List.exists_cons_of_ne_nil hr
  cases m with
  | nil => simp at hm
  | cons t ts =>
    have ht : t = v :: vs := by simpa using hm
    subst ht
    rw [List.flatten_cons, List.head?_append]
    rfl

/-! ## Chunking -/

theorem chunkFuel_irrel {α : Type} (n : ℕ) (hn : 0 < n) :
    ∀ (f g : ℕ) (l : List α), l.length ≤ f → l.length ≤ g →
      chunkFuel n f l = chunkFuel n g l := by
  intro f
  induction f with
  | zero =>
    intro g l hf _
    have : l = [] := List.length_eq_zero.mp (Nat.le_zero.mp hf)
    subst this
    cases g <;> rfl
  | succ f ih =>
    intro g l hf hg
    cases l with
    | nil => cases g <;> rfl
    | cons x xs =>
      cases g with
      | zero => simp at hg
      | succ g =>
        simp only [List.length_cons] at hf hg
        simp only [chunkFuel]
        congr 1
        exact ih g ((x :: xs).drop n)
          (by simp only [List.length_drop, List.length_cons]; omega)
          (by simp only [List.length_drop, List.length_cons]; omega)

theorem chunkList_cons {α : Type} (n : ℕ) (hn : 0 < n) (l : List α) (hl : l ≠ []) :
    chunkList n l = l.take n :: chunkList n (l.drop n) := by
  obtain ⟨x, xs, rfl⟩ := List.exists_cons_of_ne_nil hl
  show chunkFuel n (x :: xs).length (x :: xs) = _
  simp only [List.length_cons, chunkFuel]
  congr 1
  exact chunkFuel_irrel n hn xs.length ((x :: xs).drop n).length ((x :: xs).drop n)
    (by simp only [List.length_drop, List.length_cons]; omega) le_rfl

theorem chunkList_flatten {α : Type} (n : ℕ) (hn : 0 < n) (l : List α) :
    (chunkList n l).flatten = l := by
  suffices h : ∀ (f : ℕ) (l : List α), l.length ≤ f →
      (chunkFuel n f l).flatten = l by
    exact h l.length l le_rfl
  intro f
  induction f with
  | zero =>
    intro l hf
    have : l = [] := List.length_eq_zero.mp (Nat.le_zero.mp hf)
    subst this; rfl
  | succ f ih =>
    intro l hf
    cases l with
    | nil => rfl
    | cons x xs =>
      simp only [List.length_cons] at hf
      simp only [chunkFuel, List.flatten_cons]
      rw [ih ((x :: xs).drop n)
        (by simp only [List.length_drop, List.length_cons]; omega)]
      exact List.take_append_drop n (x :: xs)

theorem chunkList_cons_head {α : Type} (n : ℕ) (hn : 0 < n) (l : List α)
    (hl : l ≠ []) : ∃ t, chunkList n l = l.take n :: t :=
  ⟨chunkList n (l.drop n), chunkList_cons n hn l hl⟩

/-! ## Interleaving -/

theorem interleave_flatten_perm {α : Type} :
    ∀ (xs ys : List (List α)),
      (interleaveChunks xs ys).flatten ~ xs.flatten ++ ys.flatten := by
  intro xs
  induction xs with
  | nil => intro ys; simp [interleaveChunks]
  | cons x xs ih =>
    intro ys
    cases ys with
    | nil => simp [interleaveChunks]
    | cons y ys =>
      simp only [interleaveChunks, List.flatten_cons]
      calc x ++ (y ++ (interleaveChunks xs ys).flatten)
          ~ x ++ (y ++ (xs.flatten ++ ys.flatten)) :=
            ((ih ys).append_left y).append_left x
        _ ~ x ++ (xs.flatten ++ (y ++ ys.flatten)) := by
            refine List.Perm.append_left x ?_
            calc y ++ (xs.flatten ++ ys.flatten)
                ~ (xs.flatten ++ ys.flatten) ++ y := List.perm_append_comm
              _ = xs.flatten ++ (ys.flatten ++ y) := List.append_assoc ..
              _ ~ xs.flatten ++ (y ++ ys.flatten) :=
                  List.Perm.append_left _ List.perm_append_comm
        _ = (x ++ xs.flatten) ++ (y ++ ys.flatten) := (List.append_assoc ..).symm

theorem interleave_cons_head {α : Type} (x : List α) (xs ys : List (List α)) :
    ∃ t, interleaveChunks (x :: xs) ys = x :: t := by
  cases ys with
  | nil => exact ⟨xs, rfl⟩
  | cons y ys => exact ⟨y :: interleaveChunks xs ys, rfl⟩

/-! ## The Batch Shuffler -/

theorem shuffle_array_spec {α : Type} (x : List α) (n : ℕ)
    (h1 : 0 < n) (h2 : n ≤ x.length / 2) :
    shuffle_array x n =
      some ((interleaveChunks (chunkList n (x.take ((x.length + 1) / 2)))
        (chunkList n ((x.drop ((x.length + 1) / 2)).reverse))).flatten) ∧
      ((interleaveChunks (chunkList n (x.take ((x.length + 1) / 2)))
        (chunkList n ((x.drop ((x.length + 1) / 2)).reverse))).flatten) ~ x := by
  have hperm : ((interleaveChunks (chunkList n (x.take ((x.length + 1) / 2)))
      (chunkList n ((x.drop ((x.length + 1) / 2)).reverse))).flatten) ~ x := by
    calc (interleaveChunks (chunkList n (x.take ((x.length + 1) / 2)))
          (chunkList n ((x.drop ((x.length + 1) / 2)).reverse))).flatten
        ~ (chunkList n (x.take ((x.length + 1) / 2))).flatten ++
            (chunkList n ((x.drop ((x.length + 1) / 2)).reverse)).flatten :=
          interleave_flatten_perm ..
      _ = x.take ((x.length + 1) / 2) ++
            (x.drop ((x.length + 1) / 2)).reverse := by
          rw [chunkList_flatten n h1, chunkList_flatten n h1]
      _ ~ x.take ((x.length + 1) / 2) ++ x.drop ((x.length + 1) / 2) :=
          List.Perm.append_left _ (List.reverse_perm _)
      _ = x := List.take_append_drop ..
  refine ⟨?_, hperm⟩
  unfold shuffle_array
  rw [if_pos ⟨h1, h2⟩, if_pos hperm.length_eq]

theorem shuffle_array_some {α : Type} (x : List α) (n : ℕ)
    (h1 : 0 < n) (h2 : n ≤ x.length / 2) :
    ∃ y, shuffle_array x n = some y ∧ y ~ x :=
  ⟨_, (shuffle_array_spec x n h1 h2).1, (shuffle_array_spec x n h1 h2).2⟩

theorem shuffle_array_inv {α : Type} {x y : List α} {n : ℕ}
    (h : shuffle_array x n = some y) :
    0 < n ∧ n ≤ x.length / 2 ∧ y ~ x := by
  by_cases hb : 0 < n ∧ n ≤ x.length / 2
  · obtain ⟨heq, hperm⟩ := shuffle_array_spec x n hb.1 hb.2
    rw [heq] at h
    obtain rfl : _ = y := Option.some_injective _ h
    exact ⟨hb.1, hb.2, hperm⟩
  · unfold shuffle_array at h
    rw [if_neg hb] at h
    simp at h

theorem shuffle_array_none {α : Type} (x : List α) (n : ℕ)
    (h : x.length / 2 < n) : shuffle_array x n = none := by
  unfold shuffle_array
  rw [if_neg]
  omega

theorem shuffle_array_head {α : Type} {x y : List α} {n : ℕ}
    (h : shuffle_array x n = some y) : y.head? = x.head? := by
  obtain ⟨h1, h2, -⟩ := shuffle_array_inv h
  obtain ⟨n, rfl⟩ := Nat.exists_eq_succ_of_ne_zero (Nat.pos_iff_ne_zero.mp h1)
  have hx : x ≠ [] := by
    intro hnil; subst hnil; simp at h2
  obtain ⟨v, xs, rfl⟩ := List.exists_cons_of_ne_nil hx
  obtain ⟨heq, -⟩ := shuffle_array_spec (v :: xs) (n + 1) h1 h2
  rw [heq] at h
  obtain rfl : _ = y := Option.some_injective _ h
  obtain ⟨k, hk⟩ : ∃ k, (((v :: xs).length + 1) / 2) = k + 1 :=
    ⟨((v :: xs).length + 1) / 2 - 1, by simp only [List.length_cons]; omega⟩
  have ha : (v :: xs).take (((v :: xs).length + 1) / 2) = v :: xs.take k := by
    rw [hk, List.take_succ_cons]
  obtain ⟨t, hchunk⟩ := chunkList_cons_head (n + 1) h1
    ((v :: xs).take (((v :: xs).length + 1) / 2))
    (by rw [ha]; exact List.cons_ne_nil _ _)
  rw [hchunk]
  obtain ⟨t2, ht2⟩ := interleave_cons_head
    (((v :: xs).take (((v :: xs).length + 1) / 2)).take (n + 1)) t
    (chunkList (n + 1) (((v :: xs).drop (((v :: xs).length + 1) / 2)).reverse))
  rw [ht2, List.flatten_cons, List.head?_append, ha, List.take_succ_cons]
  rfl

/-! ## The shuffle loop -/

theorem shuffleLoop_some_of {bs : List ℕ} :
    ∀ (x : List ℕ), (∀ b ∈ bs, 0 < b ∧ b ≤ x.length / 2) →
      ∃ y, shuffleLoop bs x = some y ∧ y ~ x := by
  induction bs with
  | nil => exact fun x _ => ⟨x, rfl, List.Perm.refl x⟩
  | cons b bs ih =>
    intro x hb
    obtain ⟨y1, hy1, hp1⟩ := shuffle_array_some x b (hb b (by simp)).1
      (hb b (by simp)).2
    obtain ⟨y, hy, hp⟩ := ih y1 (fun c hc => by
      rw [hp1.length_eq]
      exact hb c (by simp [hc]))
    exact ⟨y, by simp [shuffleLoop, hy1, hy], hp.trans hp1⟩

theorem shuffleLoop_inv {bs : List ℕ} :
    ∀ {x y : List ℕ}, shuffleLoop bs x = some y → y ~ x ∧ y.head? = x.head? := by
  induction bs with
  | nil =>
    intro x y h
    obtain rfl : x = y := by simpa [shuffleLoop] using h
    exact ⟨List.Perm.refl x, rfl⟩
  | cons b bs ih =>
    intro x y h
    simp only [shuffleLoop, Option.bind_eq_some] at h
    obtain ⟨m, hm, hy⟩ := h
    obtain ⟨hp, hh⟩ := ih hy
    exact ⟨hp.trans (shuffle_array_inv hm).2.2,
      hh.trans (shuffle_array_head hm)⟩

theorem shuffleLoop_none_of {bs : List ℕ} :
    ∀ (x : List ℕ), (∀ b ∈ bs, 0 < b) → (∃ b ∈ bs, x.length / 2 < b) →
      shuffleLoop bs x = none := by
  induction bs with
  | nil => intro x _ hbad; simp at hbad
  | cons b bs ih =>
    intro x hpos hbad
    by_cases hb : x.length / 2 < b
    · simp [shuffleLoop, shuffle_array_none x b hb]
    · push_neg at hb
      obtain ⟨y1, hy1, hp1⟩ := shuffle_array_some x b (hpos b (by simp)) hb
      simp only [shuffleLoop, hy1, Option.some_bind]
      refine ih y1 (fun c hc => hpos c (by simp [hc])) ?_
      obtain ⟨c, hc, hclt⟩ := hbad
      rcases List.mem_cons.mp hc with rfl | hc
      · omega
      · exact ⟨c, hc, by rw [hp1.length_eq]; exact hclt⟩

/-! ## Strided slices -/

theorem everyNthFuel_irrel {α : Type} (n : ℕ) :
    ∀ (f g : ℕ) (l : List α), l.length ≤ f → l.length ≤ g →
      everyNthFuel n f l = everyNthFuel n g l := by
  intro f
  induction f with
  | zero =>
    intro g l hf _
    have : l = [] := List.length_eq_zero.mp (Nat.le_zero.mp hf)
    subst this
    cases g <;> rfl
  | succ f ih =>
    intro g l hf hg
    cases l with
    | nil => cases g <;> rfl
    | cons x xs =>
      cases g with
      | zero => simp at hg
      | succ g =>
        simp only [List.length_cons] at hf hg
        simp only [everyNthFuel]
        congr 1
        exact ih g (xs.drop (n - 1))
          (by simp only [List.length_drop]; omega)
          (by simp only [List.length_drop]; omega)

theorem everyNth_nil {α : Type} (n : ℕ) : everyNth n ([] : List α) = [] := rfl

theorem everyNth_cons {α : Type} (n : ℕ) (x : α) (xs : List α) :
    everyNth n (x :: xs) = x :: everyNth n (xs.drop (n - 1)) := by
  show everyNthFuel n (x :: xs).length (x :: xs) = _
  simp only [List.length_cons, everyNthFuel]
  congr 1
  exact everyNthFuel_irrel n xs.length (xs.drop (n - 1)).length (xs.drop (n - 1))
    (by simp only [List.length_drop]; omega) le_rfl

theorem length_everyNth_two {α : Type} (l : List α) :
    (everyNth 2 l).length = (l.length + 1) / 2 := by
  suffices h : ∀ (f : ℕ) (l : List α), l.length ≤ f →
      (everyNthFuel 2 f l).length = (l.length + 1) / 2 by
    exact h l.length l le_rfl
  intro f
  induction f with
  | zero =>
    intro l hf
    have : l = [] := List.length_eq_zero.mp (Nat.le_zero.mp hf)
    subst this; simp [everyNthFuel]
  | succ f ih =>
    intro l hf
    cases l with
    | nil => simp [everyNthFuel]
    | cons x xs =>
      simp only [List.length_cons] at hf
      simp only [everyNthFuel, List.length_cons]
      rw [ih (xs.drop (2 - 1)) (by simp only [List.length_drop]; omega)]
      simp only [List.length_drop]
      omega

theorem slices_flatten_perm {α : Type} (n : ℕ) (hn : 0 < n) :
    ∀ (l : List α),
      ((List.range n).map (fun i => everyNth n (l.drop i))).flatten ~ l := by
  obtain ⟨m, rfl⟩ := Nat.exists_eq_succ_of_ne_zero (Nat.pos_iff_ne_zero.mp hn)
  intro l
  induction l with
  | nil =>
    rw [List.flatten_eq_nil_iff.mpr]
    intro t ht
    simp only [List.mem_map] at ht
    obtain ⟨i, -, rfl⟩ := ht
    simp [everyNth_nil]
  | cons x xs ih =>
    rw [List.range_succ_eq_map, List.map_cons, List.map_map]
    have hslice0 : everyNth (m + 1) ((x :: xs).drop 0) =
        x :: everyNth (m + 1) (xs.drop m) := by
      rw [List.drop_zero, everyNth_cons]
      simp
    have hcomp : (List.range m).map
          ((fun i => everyNth (m + 1) ((x :: xs).drop i)) ∘ Nat.succ) =
        (List.range m).map (fun i => everyNth (m + 1) (xs.drop i)) := by
      refine List.map_congr_left (fun i _ => ?_)
      simp [Function.comp_def, List.drop_succ_cons]
    rw [hslice0, hcomp, List.flatten_cons, List.cons_append]
    refine List.Perm.cons x ?_
    have hsplit : ((List.range (m + 1)).map
          (fun i => everyNth (m + 1) (xs.drop i))).flatten =
        ((List.range m).map (fun i => everyNth (m + 1) (xs.drop i))).flatten ++
          everyNth (m + 1) (xs.drop m) := by
      rw [List.range_succ, List.map_append, List.flatten_append]
      simp
    calc everyNth (m + 1) (xs.drop m) ++
          ((List.range m).map (fun i => everyNth (m + 1) (xs.drop i))).flatten
        ~ ((List.range m).map (fun i => everyNth (m + 1) (xs.drop i))).flatten ++
            everyNth (m + 1) (xs.drop m) := List.perm_append_comm
      _ = ((List.range (m + 1)).map
            (fun i => everyNth (m + 1) (xs.drop i))).flatten := hsplit.symm
      _ ~ xs := ih

/-! ## The swinging index permutation -/

theorem swing_index_perm (n : ℕ) :
    ((List.range n).map
      (fun i => if i % 2 = 0 then i / 2 else n - i / 2 - 1)) ~ List.range n := by
  have hnodup : ((List.range n).map
      (fun i => if i % 2 = 0 then i / 2 else n - i / 2 - 1)).Nodup := by
    refine List.Nodup.map_on ?_ (List.nodup_range n)
    intro i hi j hj hij
    simp only [List.mem_range] at hi hj
    split_ifs at hij <;> omega
  have hsub : ((List.range n).map
      (fun i => if i % 2 = 0 then i / 2 else n - i / 2 - 1)) ⊆ List.range n := by
    intro a ha
    simp only [List.mem_map, List.mem_range] at ha ⊢
    obtain ⟨i, hi, rfl⟩ := ha
    split_ifs <;> omega
  refine (List.subperm_of_subset hnodup hsub).perm_of_length_le ?_
  simp

theorem swing_flatten_perm {α : Type} (S : List (List α)) :
    ((List.range S.length).map (fun i =>
      if i % 2 = 0 then S.getD (i / 2) []
      else (S.getD (S.length - i / 2 - 1) []).reverse)).flatten ~ S.flatten := by
  have h1 : ((List.range S.length).map (fun i =>
      if i % 2 = 0 then S.getD (i / 2) []
      else (S.getD (S.length - i / 2 - 1) []).reverse)).flatten ~
      ((List.range S.length).map (fun i =>
        S.getD (if i % 2 = 0 then i / 2 else S.length - i / 2 - 1) [])).flatten := by
    refine flatten_perm_pointwise _ _ _ (fun i _ => ?_)
    split_ifs with h
    · simp [h]
    · simp [h, List.reverse_perm]
  have h2 : (List.range S.length).map (fun i =>
        S.getD (if i % 2 = 0 then i / 2 else S.length - i / 2 - 1) []) =
      ((List.range S.length).map
        (fun i => if i % 2 = 0 then i / 2 else S.length - i / 2 - 1)).map
        (fun j => S.getD j []) := by
    rw [List.map_map]
    rfl
  have h3 : (((List.range S.length).map
        (fun i => if i % 2 = 0 then i / 2 else S.length - i / 2 - 1)).map
        (fun j => S.getD j [])).flatten ~
      ((List.range S.length).map (fun j => S.getD j [])).flatten :=
    ((swing_index_perm S.length).map (fun j => S.getD j [])).flatten
  calc ((List.range S.length).map (fun i =>
        if i % 2 = 0 then S.getD (i / 2) []
        else (S.getD (S.length - i / 2 - 1) []).reverse)).flatten
      ~ _ := h1
    _ = _ := congrArg List.flatten h2
    _ ~ ((List.range S.length).map (fun j => S.getD j [])).flatten := h3
    _ = S.flatten := congrArg List.flatten (range_map_getD S [])

/-! ## The deviation order used by the dose-symmetric sort -/

instance devLexTotal (angles : List ℚ) (z : ℚ) :
    IsTotal ℕ (devLex angles z) := by
  constructor
  intro i j
  rcases lt_trichotomy (devKey angles z i) (devKey angles z j) with h | h | h
  · exact Or.inl (Or.inl h)
  · rcases Nat.le_total i j with hij | hij
    · exact Or.inl (Or.inr ⟨h, hij⟩)
    · exact Or.inr (Or.inr ⟨h.symm, hij⟩)
  · exact Or.inr (Or.inl h)

instance devLexTrans (angles : List ℚ) (z : ℚ) :
    IsTrans ℕ (devLex angles z) := by
  constructor
  intro i j k hij hjk
  rcases hij with h1 | ⟨h1, h1b⟩
  · rcases hjk with h2 | ⟨h2, -⟩
    · exact Or.inl (h1.trans h2)
    · exact Or.inl (h2 ▸ h1)
  · rcases hjk with h2 | ⟨h2, h2b⟩
    · exact Or.inl (h1 ▸ h2)
    · exact Or.inr ⟨h1.trans h2, h1b.trans h2b⟩

theorem sorted_head_dev (angles : List ℚ) (z : ℚ) (iz : ℕ)
    (hiz : iz < angles.length) (hz : angles.getD iz 0 = z) :
    ∃ h0 t, List.insertionSort (devLex angles z) (List.range angles.length) =
      h0 :: t ∧ angles.getD h0 0 = z := by
  have hperm : List.insertionSort (devLex angles z) (List.range angles.length) ~
      List.range angles.length := List.perm_insertionSort _ _
  have hlen : 0 < (List.insertionSort (devLex angles z)
      (List.range angles.length)).length := by
    rw [hperm.length_eq, List.length_range]
    omega
  obtain ⟨h0, t, hht⟩ := List.exists_cons_of_ne_nil
    (List.length_pos.mp hlen)
  refine ⟨h0, t, hht, ?_⟩
  have hsorted : List.Sorted (devLex angles z)
      (List.insertionSort (devLex angles z) (List.range angles.length)) :=
    List.sorted_insertionSort _ _
  have hmem : iz ∈ List.insertionSort (devLex angles z)
      (List.range angles.length) :=
    hperm.mem_iff.mpr (List.mem_range.mpr hiz)
  rw [hht] at hsorted hmem
  rcases List.mem_cons.mp hmem with rfl | hmem
  · exact hz
  · have hrel : devLex angles z h0 iz :=
      List.rel_of_sorted_cons hsorted iz hmem
    have hkey : devKey angles z h0 ≤ devKey angles z iz := by
      rcases hrel with h | ⟨h, -⟩
      · exact le_of_lt h
      · exact le_of_eq h
    have hzero : devKey angles z iz = 0 := by
      rw [devKey, hz, sub_self, abs_zero]
    have : devKey angles z h0 = 0 :=
      le_antisymm (hzero ▸ hkey) (abs_nonneg _)
    have := abs_eq_zero.mp this
    linarith [sub_eq_zero.mp this]

/-! ## Lemmas about arangeQ -/

theorem length_arangeQ (lo hi s : ℚ) :
    (arangeQ lo hi s).length = ⌈(hi - lo) / s⌉.toNat := by
  simp [arangeQ]

theorem arangeQ_getD (lo hi s : ℚ) (i : ℕ) (h : i < ⌈(hi - lo) / s⌉.toNat) :
    (arangeQ lo hi s).getD i 0 = lo + (i : ℚ) * s := by
  rw [arangeQ, List.getD_eq_getElem?_getD, List.getElem?_map,
    List.getElem?_range h]
  rfl

theorem sorted_lt_arangeQ (lo hi : ℚ) {s : ℚ} (hs : 0 < s) :
    List.Sorted (fun a b : ℚ => a < b) (arangeQ lo hi s) := by
  rw [arangeQ]
  refine List.Pairwise.map _ ?_ (List.pairwise_lt_range _)
  intro i j hij
  have hq : (i : ℚ) < (j : ℚ) := by exact_mod_cast hij
  have := mul_lt_mul_of_pos_right hq hs
  linarith

/-! ## Lemmas about finishAngles -/

theorem finishAngles_some (lo hi s : ℚ) (h1 : lo < hi) (hs : 0 < s)
    (hne : arangeQ lo hi s ≠ [])
    (hbound : ∀ a ∈ arangeQ lo hi s, -90 ≤ a ∧ a < 90) :
    finishAngles lo hi s = some (arangeQ lo hi s) := by
  unfold finishAngles
  rw [if_pos ⟨h1, hs⟩]
  have hsort : List.insertionSort (fun a b : ℚ => a ≤ b) (arangeQ lo hi s) =
      arangeQ lo hi s :=
    List.Sorted.insertionSort_eq
      ((sorted_lt_arangeQ lo hi hs).imp (fun {a b} => le_of_lt))
  simp only [hsort]
  rw [if_pos ⟨hne, fun a ha => (hbound a ha).1, fun a ha => (hbound a ha).2⟩]

theorem finishAngles_inv {lo hi s : ℚ} {l : List ℚ}
    (h : finishAngles lo hi s = some l) :
    lo < hi ∧ 0 < s ∧ l = arangeQ lo hi s ∧ l ≠ [] ∧
      (∀ a ∈ l, -90 ≤ a) ∧ (∀ a ∈ l, a < 90) := by
  simp only [finishAngles] at h
  split_ifs at h with hc1 hc2
  · obtain ⟨hlt, hs⟩ := hc1
    have hsort : List.insertionSort (fun a b : ℚ => a ≤ b) (arangeQ lo hi s) =
        arangeQ lo hi s :=
      List.Sorted.insertionSort_eq
        ((sorted_lt_arangeQ lo hi hs).imp (fun {a b} => le_of_lt))
    rw [hsort] at h hc2
    obtain rfl : _ = l := Option.some_injective _ h
    exact ⟨hlt, hs, rfl, hc2.1, hc2.2.1, hc2.2.2⟩

/-! ## The step-based branch of the Angle Generator -/

theorem gia_step_eq (z lo hi s : ℚ)
    (hg : lo ≤ z ∧ z ≤ hi ∧ -90 ≤ lo ∧ hi ≤ 90) :
    generate_initial_angles z lo hi (some s) none =
      finishAngles (stepLo z lo hi s) (stepHi z lo hi s) s := by
  unfold generate_initial_angles
  rw [if_pos hg]

theorem gia_step_inv {z lo hi s : ℚ} {l : List ℚ}
    (h : generate_initial_angles z lo hi (some s) none = some l) :
    (lo ≤ z ∧ z ≤ hi ∧ -90 ≤ lo ∧ hi ≤ 90) ∧
      finishAngles (stepLo z lo hi s) (stepHi z lo hi s) s = some l := by
  unfold generate_initial_angles at h
  split_ifs at h with hg
  exact ⟨hg, h⟩

theorem gia_some_ne_nil {z lo hi : ℚ} {s? : Option ℚ} {k? : Option ℕ}
    {l : List ℚ} (h : generate_initial_angles z lo hi s? k? = some l) :
    l ≠ [] := by
  unfold generate_initial_angles at h
  split_ifs at h with hg
  rcases s? with - | s <;> rcases k? with - | k
  · exact absurd h (by simp)
  · exact (finishAngles_inv h).2.2.2.1
  · exact (finishAngles_inv h).2.2.2.1
  · exact absurd h (by simp)

theorem step_count (z lo hi s : ℚ) (hs : s ≠ 0) :
    ⌈(stepHi z lo hi s - stepLo z lo hi s) / s⌉ =
      ⌊maxTilt z lo hi / s⌋ + ⌈maxTilt z lo hi / s⌉ := by
  have heq : (stepHi z lo hi s - stepLo z lo hi s) / s =
      ((⌊maxTilt z lo hi / s⌋ + ⌈maxTilt z lo hi / s⌉ : ℤ) : ℚ) := by
    unfold stepHi stepLo
    field_simp
    ring
  rw [heq, Int.ceil_intCast]

theorem step_sF_le (z lo hi : ℚ) {s : ℚ} (hs : 0 < s) :
    s * (⌊maxTilt z lo hi / s⌋ : ℚ) ≤ maxTilt z lo hi := by
  have h1 := Int.floor_le (maxTilt z lo hi / s)
  have h2 := mul_le_mul_of_nonneg_left h1 (le_of_lt hs)
  have h3 : s * (maxTilt z lo hi / s) = maxTilt z lo hi := by
    field_simp
  linarith

theorem step_sC_lt (z lo hi : ℚ) {s : ℚ} (hs : 0 < s) :
    s * (⌈maxTilt z lo hi / s⌉ : ℚ) - s < maxTilt z lo hi := by
  have h1 := Int.ceil_lt_add_one (maxTilt z lo hi / s)
  have h2 : (⌈maxTilt z lo hi / s⌉ : ℚ) - 1 < maxTilt z lo hi / s := by
    linarith
  have h3 := mul_lt_mul_of_pos_left h2 hs
  have h4 : s * (maxTilt z lo hi / s) = maxTilt z lo hi := by
    field_simp
  nlinarith

theorem step_elem_bounds {z lo hi s : ℚ}
    (h1 : lo ≤ z) (h2 : z ≤ hi) (hlo : -90 ≤ lo) (hhi : hi ≤ 90) (hs : 0 < s) :
    ∀ a ∈ arangeQ (stepLo z lo hi s) (stepHi z lo hi s) s, -90 ≤ a ∧ a < 90 := by
  intro a ha
  have hm0 : 0 ≤ maxTilt z lo hi := le_min (by linarith) (by linarith)
  rw [arangeQ] at ha
  simp only [List.mem_map, List.mem_range] at ha
  obtain ⟨i, hilt, rfl⟩ := ha
  rw [step_count z lo hi s (ne_of_gt hs)] at hilt
  have hF0 : 0 ≤ ⌊maxTilt z lo hi / s⌋ :=
    Int.floor_nonneg.mpr (div_nonneg hm0 (le_of_lt hs))
  have hFle := step_sF_le z lo hi hs
  have hClt := step_sC_lt z lo hi hs
  have hml : maxTilt z lo hi ≤ z - lo := min_le_left _ _
  have hmr : maxTilt z lo hi ≤ hi - z := min_le_right _ _
  constructor
  · have hnn : (0 : ℚ) ≤ (i : ℚ) * s :=
      mul_nonneg (Nat.cast_nonneg i) (le_of_lt hs)
    unfold stepLo
    linarith
  · have hiZ : (i : ℤ) ≤ ⌊maxTilt z lo hi / s⌋ + ⌈maxTilt z lo hi / s⌉ - 1 := by
      omega
    have hiQ : (i : ℚ) ≤ (⌊maxTilt z lo hi / s⌋ : ℚ) +
        (⌈maxTilt z lo hi / s⌉ : ℚ) - 1 := by
      exact_mod_cast hiZ
    have hkey : (i : ℚ) * s ≤ ((⌊maxTilt z lo hi / s⌋ : ℚ) +
        (⌈maxTilt z lo hi / s⌉ : ℚ) - 1) * s :=
      mul_le_mul_of_nonneg_right hiQ (le_of_lt hs)
    unfold stepLo
    nlinarith

theorem step_length_pos {z lo hi s : ℚ} (hs : 0 < s)
    (hlt : stepLo z lo hi s < stepHi z lo hi s) (hm0 : 0 ≤ maxTilt z lo hi) :
    0 < ⌊maxTilt z lo hi / s⌋ + ⌈maxTilt z lo hi / s⌉ ∧
      0 ≤ ⌊maxTilt z lo hi / s⌋ ∧
      ⌊maxTilt z lo hi / s⌋ ≤ ⌈maxTilt z lo hi / s⌉ ∧
      ⌈maxTilt z lo hi / s⌉ ≤ ⌊maxTilt z lo hi / s⌋ + 1 := by
  have hF0 : 0 ≤ ⌊maxTilt z lo hi / s⌋ :=
    Int.floor_nonneg.mpr (div_nonneg hm0 (le_of_lt hs))
  have hFC : ⌊maxTilt z lo hi / s⌋ ≤ ⌈maxTilt z lo hi / s⌉ :=
    Int.floor_le_ceil _
  have hCF1 : ⌈maxTilt z lo hi / s⌉ ≤ ⌊maxTilt z lo hi / s⌋ + 1 :=
    Int.ceil_le_floor_add_one _
  refine ⟨?_, hF0, hFC, hCF1⟩
  unfold stepLo stepHi at hlt
  by_contra hcon
  push_neg at hcon
  have hsum : ⌊maxTilt z lo hi / s⌋ + ⌈maxTilt z lo hi / s⌉ ≤ 0 := hcon
  have hsumQ : ((⌊maxTilt z lo hi / s⌋ : ℚ) + (⌈maxTilt z lo hi / s⌉ : ℚ)) ≤ 0 := by
    exact_mod_cast hsum
  nlinarith

theorem step_mid {z lo hi s : ℚ} (hs : 0 < s)
    (hlt : stepLo z lo hi s < stepHi z lo hi s) (hm0 : 0 ≤ maxTilt z lo hi) :
    (arangeQ (stepLo z lo hi s) (stepHi z lo hi s) s).getD
      ((arangeQ (stepLo z lo hi s) (stepHi z lo hi s) s).length / 2) 0 = z ∧
    (arangeQ (stepLo z lo hi s) (stepHi z lo hi s) s).length / 2 <
      (arangeQ (stepLo z lo hi s) (stepHi z lo hi s) s).length := by
  obtain ⟨hpos, hF0, hFC, hCF1⟩ := step_length_pos hs hlt hm0
  have hlen : (arangeQ (stepLo z lo hi s) (stepHi z lo hi s) s).length =
      (⌊maxTilt z lo hi / s⌋ + ⌈maxTilt z lo hi / s⌉).toNat := by
    rw [length_arangeQ, step_count z lo hi s (ne_of_gt hs)]
  have hmid : (arangeQ (stepLo z lo hi s) (stepHi z lo hi s) s).length / 2 =
      (⌊maxTilt z lo hi / s⌋).toNat := by
    rw [hlen]; omega
  have hidx : (⌊maxTilt z lo hi / s⌋).toNat <
      ⌈(stepHi z lo hi s - stepLo z lo hi s) / s⌉.toNat := by
    rw [step_count z lo hi s (ne_of_gt hs)]; omega
  constructor
  · rw [hmid, arangeQ_getD _ _ _ _ hidx]
    have hcast : ((⌊maxTilt z lo hi / s⌋).toNat : ℚ) =
        (⌊maxTilt z lo hi / s⌋ : ℚ) := by
      exact_mod_cast congrArg (fun t : ℤ => (t : ℚ))
        (Int.toNat_of_nonneg hF0)
    rw [hcast]
    unfold stepLo
    ring
  · rw [hlen]; omega

theorem gia_step_some {z lo hi s : ℚ} (hlo : -90 ≤ lo) (hhi : hi ≤ 90)
    (h1 : lo < z) (h2 : z < hi) (hs : 0 < s) :
    generate_initial_angles z lo hi (some s) none =
      some (arangeQ (stepLo z lo hi s) (stepHi z lo hi s) s) := by
  rw [gia_step_eq z lo hi s ⟨h1.le, h2.le, hlo, hhi⟩]
  have hm0 : 0 < maxTilt z lo hi := lt_min (by linarith) (by linarith)
  have hF0 : 0 ≤ ⌊maxTilt z lo hi / s⌋ :=
    Int.floor_nonneg.mpr (div_nonneg hm0.le (le_of_lt hs))
  have hC1 : 0 < ⌈maxTilt z lo hi / s⌉ :=
    Int.ceil_pos.mpr (div_pos hm0 hs)
  have hlt : stepLo z lo hi s < stepHi z lo hi s := by
    have hsF : (0 : ℚ) ≤ s * (⌊maxTilt z lo hi / s⌋ : ℚ) :=
      mul_nonneg (le_of_lt hs) (by exact_mod_cast hF0)
    have hsC : (0 : ℚ) < s * (⌈maxTilt z lo hi / s⌉ : ℚ) :=
      mul_pos hs (by exact_mod_cast hC1)
    unfold stepLo stepHi
    linarith
  refine finishAngles_some _ _ _ hlt hs ?_ (step_elem_bounds h1.le h2.le hlo hhi hs)
  have hlen : (arangeQ (stepLo z lo hi s) (stepHi z lo hi s) s).length =
      (⌊maxTilt z lo hi / s⌋ + ⌈maxTilt z lo hi / s⌉).toNat := by
    rw [length_arangeQ, step_count z lo hi s (ne_of_gt hs)]
  intro hnil
  rw [hnil] at hlen
  simp only [List.length_nil] at hlen
  omega

/-! ## Permutation properties of the three Symmetry Schemes -/

theorem dose_perm (angles : List ℚ) (z : ℚ) (symmetry : ℕ)
    (hb : 2 ≤ symmetry → 2 ^ (symmetry - 2) ≤ angles.length / 2) :
    ∃ ord, generate_dose_symmetric_scan angles symmetry z = some ord ∧
      ord ~ List.range angles.length := by
  simp only [generate_dose_symmetric_scan]
  by_cases hsym : 0 < symmetry
  · rw [if_pos hsym]
    have hsp : List.insertionSort (devLex angles z) (List.range angles.length) ~
        List.range angles.length := List.perm_insertionSort _ _
    have hlen : (List.insertionSort (devLex angles z)
        (List.range angles.length)).length = angles.length := by
      rw [hsp.length_eq, List.length_range]
    have hbound : ∀ b ∈ (List.range (symmetry - 1)).map (fun i => 2 ^ i),
        0 < b ∧ b ≤ (List.insertionSort (devLex angles z)
          (List.range angles.length)).length / 2 := by
      intro b hbm
      simp only [List.mem_map, List.mem_range] at hbm
      obtain ⟨i, hilt, rfl⟩ := hbm
      refine ⟨Nat.pow_pos (by norm_num), ?_⟩
      rw [hlen]
      have h2s : 2 ≤ symmetry := by omega
      calc 2 ^ i ≤ 2 ^ (symmetry - 2) :=
            Nat.pow_le_pow_right (by norm_num) (by omega)
        _ ≤ angles.length / 2 := hb h2s
    obtain ⟨y, hy, hp⟩ := shuffleLoop_some_of _ hbound
    exact ⟨y, hy, hp.trans hsp⟩
  · rw [if_neg hsym]
    exact ⟨_, rfl, List.Perm.refl _⟩

theorem dose_some_perm {angles : List ℚ} {z : ℚ} {symmetry : ℕ} {ord : List ℕ}
    (h : generate_dose_symmetric_scan angles symmetry z = some ord) :
    ord ~ List.range angles.length := by
  simp only [generate_dose_symmetric_scan] at h
  split_ifs at h with h0
  · exact (shuffleLoop_inv h).1.trans (List.perm_insertionSort _ _)
  · obtain rfl := Option.some_injective _ h
    exact List.Perm.refl _

theorem dose_none (angles : List ℚ) (z : ℚ) (symmetry : ℕ)
    (h2 : 2 ≤ symmetry) (h3 : angles.length / 2 < 2 ^ (symmetry - 2)) :
    generate_dose_symmetric_scan angles symmetry z = none := by
  simp only [generate_dose_symmetric_scan]
  rw [if_pos (by omega : 0 < symmetry)]
  refine shuffleLoop_none_of _ ?_ ?_
  · intro b hbm
    simp only [List.mem_map, List.mem_range] at hbm
    obtain ⟨i, -, rfl⟩ := hbm
    exact Nat.pow_pos (by norm_num)
  · refine ⟨2 ^ (symmetry - 2), ?_, ?_⟩
    · simp only [List.mem_map, List.mem_range]
      exact ⟨symmetry - 2, by omega, rfl⟩
    · rw [(List.perm_insertionSort _ _).length_eq, List.length_range]
      exact h3

theorem spiral_perm (angles : List ℚ) (n : ℤ) :
    generate_spiral_scan angles n ~ List.range angles.length := by
  rcases lt_or_le 1 n with h | h
  · simp only [generate_spiral_scan, if_pos h]
    exact slices_flatten_perm n.toNat (by omega) (List.range angles.length)
  · simp only [generate_spiral_scan, if_neg (not_lt.mpr h)]
    exact List.Perm.refl _

theorem swinging_perm (angles : List ℚ) (n : ℤ) :
    generate_swinging_scan angles n ~ List.range angles.length := by
  rcases lt_or_le 1 n with h | h
  · simp only [generate_swinging_scan, if_pos h]
    set S := (List.range n.toNat).map
      (fun i => everyNth n.toNat ((List.range angles.length).drop i)) with hS
    have hlen : S.length = n.toNat := by
      rw [hS, List.length_map, List.length_range]
    rw [← hlen]
    exact (swing_flatten_perm S).trans
      (slices_flatten_perm n.toNat (by omega) (List.range angles.length))
  · simp only [generate_swinging_scan, if_neg (not_lt.mpr h)]
    exact List.Perm.refl _

/-! ## Shifted positions and final order -/

theorem shifted_inv {angles positions : List ℚ} {pmin pmax : ℤ}
    {A P : List (List ℚ)}
    (h : generate_shifted_positions angles positions pmin pmax = some (A, P)) :
    0 < pmax - pmin ∧ angles.length = positions.length ∧
      P = (rangeZ pmin pmax).map
        (fun p : ℤ => positions.map (fun q => q + (p : ℚ))) ∧
      A = (List.range ((rangeZ pmin pmax).map
        (fun p : ℤ => positions.map (fun q => q + (p : ℚ)))).length).map
        (fun _ => angles) := by
  simp only [generate_shifted_positions] at h
  split_ifs at h with h1 h2
  have hpair := Option.some_injective _ h
  exact ⟨h1, h2, congrArg Prod.snd hpair.symm, congrArg Prod.fst hpair.symm⟩

theorem length_rangeZ (lo hi : ℤ) : (rangeZ lo hi).length = (hi - lo).toNat := by
  simp [rangeZ]

theorem shifted_shapes {angles positions : List ℚ} {pmin pmax : ℤ}
    {A P : List (List ℚ)}
    (h : generate_shifted_positions angles positions pmin pmax = some (A, P)) :
    A.length = (pmax - pmin).toNat ∧ P.length = (pmax - pmin).toNat ∧
      (∀ r ∈ A, r.length = angles.length) ∧
      (∀ r ∈ P, r.length = angles.length) := by
  obtain ⟨h1, h2, hP, hA⟩ := shifted_inv h
  refine ⟨?_, ?_, ?_, ?_⟩
  · rw [hA, List.length_map, List.length_range, List.length_map, length_rangeZ]
  · rw [hP, List.length_map, length_rangeZ]
  · intro r hr
    rw [hA] at hr
    simp only [List.mem_map] at hr
    obtain ⟨-, -, rfl⟩ := hr
    rfl
  · intro r hr
    rw [hP] at hr
    simp only [List.mem_map] at hr
    obtain ⟨-, -, rfl⟩ := hr
    rw [List.length_map, h2]

theorem shifted_head {angles positions : List ℚ} {pmin pmax : ℤ}
    {A P : List (List ℚ)}
    (h : generate_shifted_positions angles positions pmin pmax = some (A, P)) :
    A.head? = some angles := by
  obtain ⟨h1, -, hP, hA⟩ := shifted_inv h
  rw [hA, List.length_map, length_rangeZ]
  obtain ⟨k, hk⟩ : ∃ k, (pmax - pmin).toNat = k + 1 :=
    ⟨(pmax - pmin).toNat - 1, by omega⟩
  rw [hk, List.range_succ_eq_map, List.map_cons]
  rfl

theorem final_order_angle_ip (A P : List (List ℚ)) :
    generate_final_order A P "angle" true =
      (((List.range 2).map (sliceCols2 (transposeRect A))).flatten,
       ((List.range 2).map (sliceCols2 (transposeRect P))).flatten) := rfl

theorem final_order_angle_noip (A P : List (List ℚ)) :
    generate_final_order A P "angle" false =
      ((transposeRect A).flatten, (transposeRect P).flatten) := rfl

theorem final_order_other (A P : List (List ℚ)) (ob : String) (ip : Bool)
    (h : ob ≠ "angle") :
    generate_final_order A P ob ip = (A.flatten, P.flatten) := by
  unfold generate_final_order
  rw [if_neg h]

theorem transposeRect_head? (r : List ℚ) (ts : List (List ℚ)) (hr : r ≠ []) :
    (transposeRect (r :: ts)).head? =
      some ((r :: ts).map (fun row => row.getD 0 0)) := by
  unfold transposeRect
  obtain ⟨v, vs, rfl⟩ := List.exists_cons_of_ne_nil hr
  simp only [List.headD_cons, List.length_cons]
  rw [List.range_succ_eq_map, List.map_cons]
  rfl

theorem transposeRect_length (m : List (List ℚ)) :
    (transposeRect m).length = (m.headD []).length := by
  simp [transposeRect]

theorem transposeRect_rows (m : List (List ℚ)) :
    ∀ r ∈ transposeRect m, r.length = m.length := by
  intro r hr
  simp only [transposeRect, List.mem_map] at hr
  obtain ⟨j, -, rfl⟩ := hr
  simp

theorem sliceCols2_zero_head (T : List (List ℚ)) (t0 : List ℚ)
    (hT : T.head? = some t0) (h0 : t0 ≠ []) :
    (sliceCols2 T 0).head? = t0.head? := by
  obtain ⟨v, vs, rfl⟩ := List.exists_cons_of_ne_nil h0
  cases T with
  | nil => simp at hT
  | cons t ts =>
    have ht : t = v :: vs := by simpa using hT
    subst ht
    unfold sliceCols2
    rw [List.map_cons]
    rw [head?_flatten_of_head? (by rfl) ?hne]
    case hne =>
      rw [List.drop_zero, everyNth_cons]
      exact List.cons_ne_nil _ _
    rw [List.drop_zero, everyNth_cons]
    rfl

theorem final_order_head (A P : List (List ℚ)) (r : List ℚ) (ob : String)
    (ip : Bool) (hA : A.head? = some r) (hr : r ≠ []) :
    (generate_final_order A P ob ip).1.head? = r.head? := by
  obtain ⟨v, vs, rfl⟩ := List.exists_cons_of_ne_nil hr
  obtain ⟨ts, rfl⟩ : ∃ ts, A = (v :: vs) :: ts := by
    cases A with
    | nil => simp at hA
    | cons t ts =>
      have ht : t = v :: vs := by simpa using hA
      exact ⟨ts, by rw [ht]⟩
  by_cases hob : ob = "angle"
  · subst hob
    have hThead := transposeRect_head? (v :: vs) ts (List.cons_ne_nil _ _)
    have hrow : ((v :: vs) :: ts).map (fun row => row.getD 0 0) =
        v :: ts.map (fun row => row.getD 0 0) := by
      rw [List.map_cons]
      rfl
    cases ip with
    | false =>
      rw [final_order_angle_noip]
      show (transposeRect ((v :: vs) :: ts)).flatten.head? = _
      rw [head?_flatten_of_head? hThead (by rw [hrow]; exact List.cons_ne_nil _ _)]
      rw [hrow]
      rfl
    | true =>
      rw [final_order_angle_ip]
      show (((List.range 2).map (sliceCols2 (transposeRect
        ((v :: vs) :: ts)))).flatten).head? = _
      have hr2 : List.range 2 = [0, 1] := by decide
      rw [hr2, List.map_cons, List.map_cons, List.map_nil, List.flatten_cons,
        List.head?_append]
      have hs0 : (sliceCols2 (transposeRect ((v :: vs) :: ts)) 0).head? =
          some v := by
        rw [sliceCols2_zero_head _ _ hThead
          (by rw [hrow]; exact List.cons_ne_nil _ _)]
        rw [hrow]
        rfl
      rw [hs0]
      rfl
  · rw [final_order_other _ _ _ _ hob]
    show ((v :: vs) :: ts).flatten.head? = _
    rw [head?_flatten_of_head? (by rfl) (List.cons_ne_nil _ _)]

/-! ## Lengths through the Final-Order Composer -/

theorem sliceCols2_length (T : List (List ℚ)) (d : ℕ) (i : ℕ)
    (hrows : ∀ r ∈ T, r.length = d) :
    (sliceCols2 T i).length = T.length * ((d - i + 1) / 2) := by
  unfold sliceCols2
  rw [flatten_length_const _ ((d - i + 1) / 2) ?_, List.length_map]
  intro r hr
  simp only [List.mem_map] at hr
  obtain ⟨row, hrow, rfl⟩ := hr
  rw [length_everyNth_two, List.length_drop, hrows row hrow]

theorem transposeRect_shape (m : List (List ℚ)) (d N : ℕ) (hml : m.length = d)
    (hrows : ∀ r ∈ m, r.length = N) (hd : 0 < d) :
    (transposeRect m).length = N ∧ ∀ r ∈ transposeRect m, r.length = d := by
  constructor
  · rw [transposeRect_length]
    cases m with
    | nil => rw [List.length_nil] at hml; omega
    | cons r rs =>
      simp only [List.headD_cons]
      exact hrows r (by simp)
  · intro r hr
    rw [← hml]
    exact transposeRect_rows m r hr

theorem flatten_plain_length (A : List (List ℚ)) (d N : ℕ)
    (hAl : A.length = d) (hAr : ∀ r ∈ A, r.length = N) :
    A.flatten.length = d * N := by
  rw [flatten_length_const A N hAr, hAl]

theorem flatten_transpose_length (A : List (List ℚ)) (d N : ℕ)
    (hAl : A.length = d) (hAr : ∀ r ∈ A, r.length = N) (hd : 0 < d) :
    (transposeRect A).flatten.length = d * N := by
  obtain ⟨hTl, hTr⟩ := transposeRect_shape A d N hAl hAr hd
  rw [flatten_length_const _ d hTr, hTl, Nat.mul_comm]

theorem flatten_slice_length (A : List (List ℚ)) (d N : ℕ)
    (hAl : A.length = d) (hAr : ∀ r ∈ A, r.length = N) (hd : 0 < d) :
    (((List.range 2).map (sliceCols2 (transposeRect A))).flatten).length =
      d * N := by
  obtain ⟨hTl, hTr⟩ := transposeRect_shape A d N hAl hAr hd
  have hr2 : List.range 2 = [0, 1] := by decide
  rw [hr2, List.map_cons, List.map_cons, List.map_nil, List.flatten_cons,
    List.flatten_cons, List.flatten_nil, List.append_nil, List.length_append,
    sliceCols2_length _ d 0 hTr, sliceCols2_length _ d 1 hTr, hTl,
    ← Nat.mul_add]
  have harith : (d - 0 + 1) / 2 + (d - 1 + 1) / 2 = d := by omega
  rw [harith, Nat.mul_comm]

theorem final_order_lengths (A P : List (List ℚ)) (d N : ℕ) (ob : String)
    (ip : Bool) (hAl : A.length = d) (hPl : P.length = d)
    (hAr : ∀ r ∈ A, r.length = N) (hPr : ∀ r ∈ P, r.length = N)
    (hd : 0 < d) :
    (generate_final_order A P ob ip).1.length = d * N ∧
      (generate_final_order A P ob ip).2.length = d * N := by
  by_cases hob : ob = "angle"
  · subst hob
    cases ip with
    | false =>
      rw [final_order_angle_noip]
      exact ⟨flatten_transpose_length A d N hAl hAr hd,
        flatten_transpose_length P d N hPl hPr hd⟩
    | true =>
      rw [final_order_angle_ip]
      exact ⟨flatten_slice_length A d N hAl hAr hd,
        flatten_slice_length P d N hPl hPr hd⟩
  · rw [final_order_other _ _ _ _ hob]
    exact ⟨flatten_plain_length A d N hAl hAr,
      flatten_plain_length P d N hPl hPr⟩

/-! ## Inversion of the Scan Orchestrator -/

theorem generate_scan_symmetric_inv
    {z lo hi : ℚ} {s? : Option ℚ} {k? : Option ℕ} {symmetry : ℕ} {stepnum : ℤ}
    {nhelix : ℕ} {pmin pmax : ℤ} {ob : String} {ip : Bool} {p a : List ℚ}
    (h : generate_scan z lo hi s? k? "symmetric" symmetry stepnum nhelix pmin
      pmax ob ip = some (p, a)) :
    ∃ angles positions order grids,
      generate_initial_angles z lo hi s? k? = some angles ∧
      generate_initial_positions nhelix angles.length = some positions ∧
      generate_dose_symmetric_scan angles symmetry
        (angles.getD (angles.length / 2) 0) = some order ∧
      generate_shifted_positions (order.map (fun i => angles.getD i 0))
        (order.map (fun i => positions.getD i 0)) pmin pmax = some grids ∧
      p = (generate_final_order grids.1 grids.2 ob ip).2 ∧
      a = (generate_final_order grids.1 grids.2 ob ip).1 := by
  simp only [generate_scan, String.reduceEq, reduceIte, true_or,
    true_and] at h
  split_ifs at h with hg
  rw [Option.bind_eq_some] at h
  obtain ⟨angles, hang, h⟩ := h
  rw [Option.bind_eq_some] at h
  obtain ⟨positions, hpos, h⟩ := h
  rw [Option.bind_eq_some] at h
  obtain ⟨order, hord, h⟩ := h
  rw [Option.bind_eq_some] at h
  obtain ⟨grids, hgrids, h⟩ := h
  have hpa := Option.some_injective _ h
  exact ⟨angles, positions, order, grids, hang, hpos, hord, hgrids,
    (congrArg Prod.fst hpa).symm, (congrArg Prod.snd hpa).symm⟩

theorem generate_scan_inv
    {z lo hi : ℚ} {s? : Option ℚ} {k? : Option ℕ} {mode : String}
    {symmetry : ℕ} {stepnum : ℤ} {nhelix : ℕ} {pmin pmax : ℤ} {ob : String}
    {ip : Bool} {p a : List ℚ}
    (h : generate_scan z lo hi s? k? mode symmetry stepnum nhelix pmin
      pmax ob ip = some (p, a)) :
    ∃ angles positions order grids,
      generate_initial_angles z lo hi s? k? = some angles ∧
      generate_initial_positions nhelix angles.length = some positions ∧
      order ~ List.range angles.length ∧
      1 ≤ pmax - pmin ∧
      generate_shifted_positions (order.map (fun i => angles.getD i 0))
        (order.map (fun i => positions.getD i 0)) pmin pmax = some grids ∧
      p = (generate_final_order grids.1 grids.2 ob ip).2 ∧
      a = (generate_final_order grids.1 grids.2 ob ip).1 := by
  have hmode : mode = "symmetric" ∨ mode = "spiral" ∨ mode = "swinging" := by
    by_contra hcon
    push_neg at hcon
    unfold generate_scan at h
    rw [if_neg (by tauto)] at h
    exact absurd h (by simp)
  have hpp : 1 ≤ pmax - pmin := by
    by_contra hcon
    unfold generate_scan at h
    rw [if_neg (by tauto)] at h
    exact absurd h (by simp)
  rcases hmode with hm | hm | hm
  · subst hm
    obtain ⟨angles, positions, order, grids, hang, hpos, hord, hgrids,
      hp2, ha2⟩ := generate_scan_symmetric_inv h
    exact ⟨angles, positions, order, grids, hang, hpos, dose_some_perm hord,
      hpp, hgrids, hp2, ha2⟩
  · subst hm
    simp only [generate_scan, String.reduceEq, reduceIte, false_or, true_or,
      or_true, true_and] at h
    split_ifs at h with hg
    rw [Option.bind_eq_some] at h
    obtain ⟨angles, hang, h⟩ := h
    rw [Option.bind_eq_some] at h
    obtain ⟨positions, hpos, h⟩ := h
    rw [Option.some_bind] at h
    rw [Option.bind_eq_some] at h
    obtain ⟨grids, hgrids, h⟩ := h
    have hpa := Option.some_injective _ h
    exact ⟨angles, positions, _, grids, hang, hpos,
      spiral_perm angles (get_stepnum angles.length symmetry stepnum),
      hpp, hgrids, (congrArg Prod.fst hpa).symm, (congrArg Prod.snd hpa).symm⟩
  · subst hm
    simp only [generate_scan, String.reduceEq, reduceIte, false_or, true_or,
      or_true, true_and] at h
    split_ifs at h with hg
    rw [Option.bind_eq_some] at h
    obtain ⟨angles, hang, h⟩ := h
    rw [Option.bind_eq_some] at h
    obtain ⟨positions, hpos, h⟩ := h
    rw [Option.some_bind] at h
    rw [Option.bind_eq_some] at h
    obtain ⟨grids, hgrids, h⟩ := h
    have hpa := Option.some_injective _ h
    exact ⟨angles, positions, _, grids, hang, hpos,
      swinging_perm angles (get_stepnum angles.length symmetry stepnum),
      hpp, hgrids, (congrArg Prod.fst hpa).symm, (congrArg Prod.snd hpa).symm⟩

/-! ## The claims -/

/-- C1: `generate_dose_symmetric_scan` returns the identity order for
`symmetry = 0`; for `symmetry ≥ 1` (with `2^(symmetry-2) ≤ N/2` when
`symmetry ≥ 2` so that every batch fits) it returns the index order
obtained by stably sorting the indices by absolute deviation of their
angle from the reference (ties broken by index, i.e. sorted by `devLex`)
and then applying the Batch Shuffler `symmetry - 1` times with batch
size `2^i` on iteration `i`; in particular for `symmetry = 1` over
`arange(-90, 90, 4.5)` the reordered angles start at `0.0`, alternate
`-4.5, +4.5, -9.0, +9.0, …` and end at `-90.0`. -/
theorem floret_claim_C1 :
    (∀ (angles : List ℚ) (z : ℚ),
      generate_dose_symmetric_scan angles 0 z =
        some (List.range angles.length)) ∧
    (∀ (angles : List ℚ) (z : ℚ) (symmetry : ℕ), 1 ≤ symmetry →
      generate_dose_symmetric_scan angles symmetry z =
        shuffleLoop ((List.range (symmetry - 1)).map (fun i => 2 ^ i))
          (List.insertionSort (devLex angles z) (List.range angles.length)) ∧
      ((2 ≤ symmetry → 2 ^ (symmetry - 2) ≤ angles.length / 2) →
        ∃ ord, generate_dose_symmetric_scan angles symmetry z = some ord)) ∧
    (generate_dose_symmetric_scan (arangeQ (-90) 90 (9/2)) 1 0).map
        (fun ord => ord.map (fun i => (arangeQ (-90) 90 (9/2)).getD i 0)) =
      some [0, -4.5, 4.5, -9, 9, -13.5, 13.5, -18, 18, -22.5, 22.5, -27, 27,
        -31.5, 31.5, -36, 36, -40.5, 40.5, -45, 45, -49.5, 49.5, -54, 54,
        -58.5, 58.5, -63, 63, -67.5, 67.5, -72, 72, -76.5, 76.5, -81, 81,
        -85.5, 85.5, -90] := by
  refine ⟨?_, ?_, ?_⟩
  · intro angles z
    simp [generate_dose_symmetric_scan]
  · intro angles z symmetry hsym
    constructor
    · simp only [generate_dose_symmetric_scan,
        if_pos (by omega : 0 < symmetry)]
    · intro hb
      obtain ⟨ord, hord, -⟩ := dose_perm angles z symmetry hb
      exact ⟨ord, hord⟩
  · with_unfolding_all decide

/-- Witness for C1: the conditional part instantiated at a concrete
4-angle array with symmetry 2. -/
theorem floret_claim_C1_w :
    ∃ ord, generate_dose_symmetric_scan ([-2, -1, 0, 1] : List ℚ) 2 0 =
      some ord :=
  (floret_claim_C1.2.1 [-2, -1, 0, 1] 0 2 (by decide)).2 (by decide)

/-- C2: for `0 < n ≤ ⌊L/2⌋`, `shuffle_array` splits the input into a
first half of `⌈L/2⌉` elements and the reversed remainder, chunks both
into groups of `n`, interleaves the chunks pairwise and concatenates;
the result has length `L` and is a permutation of the input; in
particular `shuffle_array([0..10], 1) = [0,10,1,9,2,8,3,7,4,6,5]`. -/
theorem floret_claim_C2 :
    (∀ {α : Type} (x : List α) (n : ℕ), 0 < n → n ≤ x.length / 2 →
      ∃ y, shuffle_array x n = some y ∧ y.length = x.length ∧ y ~ x ∧
        y = (interleaveChunks (chunkList n (x.take ((x.length + 1) / 2)))
          (chunkList n ((x.drop ((x.length + 1) / 2)).reverse))).flatten) ∧
    shuffle_array (List.range 11) 1 =
      some [0, 10, 1, 9, 2, 8, 3, 7, 4, 6, 5] := by
  constructor
  · intro α x n h1 h2
    obtain ⟨heq, hperm⟩ := shuffle_array_spec x n h1 h2
    exact ⟨_, heq, hperm.length_eq, hperm, rfl⟩
  · decide

/-- Witness for C2: the universal part instantiated at `[0..7]` with
batch size 2. -/
theorem floret_claim_C2_w :
    ∃ y, shuffle_array (List.range 8) 2 = some y ∧
      y.length = (List.range 8).length ∧ y ~ List.range 8 ∧
      y = (interleaveChunks
        (chunkList 2 ((List.range 8).take (((List.range 8).length + 1) / 2)))
        (chunkList 2 (((List.range 8).drop
          (((List.range 8).length + 1) / 2)).reverse))).flatten :=
  floret_claim_C2.1 (List.range 8) 2 (by decide) (by decide)

/-- C3 counterexample: the configuration `z = lo = 0, hi = 90, s = 1`
satisfies every condition listed in the claim (`min ≤ zero ≤ max`,
`min ≥ -90`, `max ≤ 90`, `step > 0`, count unset), yet
`generate_initial_angles` raises instead of returning a sequence: with
`z = lo` the excursion `min(z - lo, hi - z)` is `0`, the re-centered
range is empty, and the `assert tilt_angle_min < tilt_angle_max`
fails. -/
theorem floret_claim_C3_cx :
    generate_initial_angles 0 0 90 (some 1) none = none ∧
      ((0 : ℚ) ≤ 0 ∧ (0 : ℚ) ≤ 90 ∧ (-90 : ℚ) ≤ 0 ∧ (90 : ℚ) ≤ 90 ∧
        (0 : ℚ) < 1) := by
  constructor
  · with_unfolding_all decide
  · norm_num

/-- C3 (amended): for every step-based configuration with
`-90 ≤ lo < z < hi ≤ 90` (strict inequalities added: when `z = lo` or
`z = hi` the re-centered range is empty and the function raises) and
`s > 0`, `generate_initial_angles` returns a non-empty strictly
increasing sequence and every value lies in `[-90, 90)`. -/
theorem floret_claim_C3 (z lo hi s : ℚ) (hlo : -90 ≤ lo) (hhi : hi ≤ 90)
    (h1 : lo < z) (h2 : z < hi) (hs : 0 < s) :
    ∃ l, generate_initial_angles z lo hi (some s) none = some l ∧
      l ≠ [] ∧ List.Sorted (fun a b : ℚ => a < b) l ∧
      ∀ a ∈ l, -90 ≤ a ∧ a < 90 := by
  refine ⟨_, gia_step_some hlo hhi h1 h2 hs, ?_, sorted_lt_arangeQ _ _ hs,
    step_elem_bounds h1.le h2.le hlo hhi hs⟩
  have hback := gia_step_some hlo hhi h1 h2 hs
  rw [gia_step_eq z lo hi s ⟨h1.le, h2.le, hlo, hhi⟩] at hback
  exact (finishAngles_inv hback).2.2.2.1

/-- Witness for C3: the amended claim at `z = 0, lo = -2, hi = 2, s = 1`. -/
theorem floret_claim_C3_w :
    ∃ l, generate_initial_angles 0 (-2) 2 (some 1) none = some l ∧
      l ≠ [] ∧ List.Sorted (fun a b : ℚ => a < b) l ∧
      ∀ a ∈ l, -90 ≤ a ∧ a < 90 :=
  floret_claim_C3 0 (-2) 2 1 (by norm_num) (by norm_num) (by norm_num)
    (by norm_num) (by norm_num)

/-- C6: whenever the step-based `generate_initial_angles` returns, the
returned sequence is exactly the (sorted) arange over the re-centered
range `lo' = z - s*⌊m/s⌋`, `hi' = z + s*⌈m/s⌉` with
`m = min(z - lo, hi - z)`, and it contains the value `z` itself. -/
theorem floret_claim_C6 {z lo hi s : ℚ} {l : List ℚ}
    (h : generate_initial_angles z lo hi (some s) none = some l) :
    l = arangeQ (z - s * ((⌊min (z - lo) (hi - z) / s⌋ : ℤ) : ℚ))
        (z + s * ((⌈min (z - lo) (hi - z) / s⌉ : ℤ) : ℚ)) s ∧ z ∈ l := by
  obtain ⟨⟨hg1, hg2, -, -⟩, hfin⟩ := gia_step_inv h
  obtain ⟨hlt, hs, hleq, -, -, -⟩ := finishAngles_inv hfin
  have hm0 : (0 : ℚ) ≤ maxTilt z lo hi := le_min (by linarith) (by linarith)
  obtain ⟨hmid, hidx⟩ := step_mid hs hlt hm0
  constructor
  · exact hleq
  · rw [hleq]
    have hgetD := List.getD_eq_getElem
      (arangeQ (stepLo z lo hi s) (stepHi z lo hi s) s) 0 hidx
    rw [hgetD] at hmid
    have hm := List.getElem_mem hidx
    rw [hmid] at hm
    exact hm

/-- Witness for C6: the step-based call at `z = 0, lo = -2, hi = 2, s = 1`
returns `[-2, -1, 0, 1]`, which matches the re-centered arange and
contains `z = 0`. -/
theorem floret_claim_C6_w :
    ([-2, -1, 0, 1] : List ℚ) =
      arangeQ (0 - 1 * ((⌊min ((0 : ℚ) - (-2)) (2 - 0) / 1⌋ : ℤ) : ℚ))
        (0 + 1 * ((⌈min ((0 : ℚ) - (-2)) (2 - 0) / 1⌉ : ℤ) : ℚ)) 1 ∧
      (0 : ℚ) ∈ [-2, -1, 0, 1] :=
  floret_claim_C6 (by with_unfolding_all decide)

/-- C7: each of the three Symmetry Schemes returns a permutation of the
indices `[0, N)` (the dose-symmetric one under the shuffler batch-size
bound, the spiral and swinging ones for every integer `n`), so applying
the returned order to the angle array preserves the multiset of
angles. -/
theorem floret_claim_C7 :
    (∀ (angles : List ℚ) (z : ℚ) (symmetry : ℕ),
        (2 ≤ symmetry → 2 ^ (symmetry - 2) ≤ angles.length / 2) →
        ∃ ord, generate_dose_symmetric_scan angles symmetry z = some ord ∧
          ord ~ List.range angles.length ∧
          ord.map (fun i => angles.getD i 0) ~ angles) ∧
    (∀ (angles : List ℚ) (n : ℤ),
        generate_spiral_scan angles n ~ List.range angles.length ∧
        (generate_spiral_scan angles n).map (fun i => angles.getD i 0) ~
          angles) ∧
    (∀ (angles : List ℚ) (n : ℤ),
        generate_swinging_scan angles n ~ List.range angles.length ∧
        (generate_swinging_scan angles n).map (fun i => angles.getD i 0) ~
          angles) := by
  refine ⟨?_, ?_, ?_⟩
  · intro angles z symmetry hb
    obtain ⟨ord, hord, hperm⟩ := dose_perm angles z symmetry hb
    exact ⟨ord, hord, hperm, map_getD_perm 0 hperm⟩
  · intro angles n
    exact ⟨spiral_perm angles n, map_getD_perm 0 (spiral_perm angles n)⟩
  · intro angles n
    exact ⟨swinging_perm angles n, map_getD_perm 0 (swinging_perm angles n)⟩

/-- Witness for C7: the dose-symmetric part instantiated at a concrete
4-angle array with symmetry 3 (batch sizes 1 and 2, both within the
bound). -/
theorem floret_claim_C7_w :
    ∃ ord, generate_dose_symmetric_scan ([-2, -1, 0, 1] : List ℚ) 3 0 =
      some ord ∧ ord ~ List.range ([-2, -1, 0, 1] : List ℚ).length ∧
      ord.map (fun i => ([-2, -1, 0, 1] : List ℚ).getD i 0) ~ [-2, -1, 0, 1] :=
  floret_claim_C7.1 [-2, -1, 0, 1] 0 3 (by decide)

/-- C8: `generate_swinging_scan` returns the identity order when
`n ≤ 1`; for `n > 1` it concatenates, for output slice `i = 0..n-1`,
`splits[i/2]` forward when `i` is even and `splits[n - i/2 - 1]`
reversed when `i` is odd, over the `n` stride-`n` offset slices of
`[0, N)`; in particular for `n = 4` the result is
`[slice0, reverse(slice3), slice1, reverse(slice2)]`. -/
theorem floret_claim_C8 :
    (∀ (angles : List ℚ) (n : ℤ), n ≤ 1 →
        generate_swinging_scan angles n = List.range angles.length) ∧
    (∀ (angles : List ℚ) (n : ℤ), 1 < n →
        generate_swinging_scan angles n =
          ((List.range n.toNat).map (fun i =>
            if i % 2 = 0 then
              ((List.range n.toNat).map (fun j => everyNth n.toNat
                ((List.range angles.length).drop j))).getD (i / 2) []
            else (((List.range n.toNat).map (fun j => everyNth n.toNat
                ((List.range angles.length).drop j))).getD
                (n.toNat - i / 2 - 1) []).reverse)).flatten) ∧
    (∀ angles : List ℚ,
        generate_swinging_scan angles 4 =
          everyNth 4 (List.range angles.length) ++
            ((everyNth 4 ((List.range angles.length).drop 3)).reverse ++
              (everyNth 4 ((List.range angles.length).drop 1) ++
                (everyNth 4 ((List.range angles.length).drop 2)).reverse))) := by
  have h2 : ∀ (angles : List ℚ) (n : ℤ), 1 < n →
      generate_swinging_scan angles n =
        ((List.range n.toNat).map (fun i =>
          if i % 2 = 0 then
            ((List.range n.toNat).map (fun j => everyNth n.toNat
              ((List.range angles.length).drop j))).getD (i / 2) []
          else (((List.range n.toNat).map (fun j => everyNth n.toNat
              ((List.range angles.length).drop j))).getD
              (n.toNat - i / 2 - 1) []).reverse)).flatten := by
    intro angles n h
    simp only [generate_swinging_scan, if_pos h]
    have hfn : flip_or_not ((List.range n.toNat).map (fun i => everyNth n.toNat
        ((List.range angles.length).drop i))) = fun i =>
        if i % 2 = 0 then
          ((List.range n.toNat).map (fun j => everyNth n.toNat
            ((List.range angles.length).drop j))).getD (i / 2) []
        else (((List.range n.toNat).map (fun j => everyNth n.toNat
            ((List.range angles.length).drop j))).getD
            (((List.range n.toNat).map (fun j => everyNth n.toNat
              ((List.range angles.length).drop j))).length - i / 2 - 1)
            []).reverse := rfl
    rw [hfn]
    simp only [List.length_map, List.length_range]
  refine ⟨?_, h2, ?_⟩
  · intro angles n h
    simp only [generate_swinging_scan, if_neg (not_lt.mpr h)]
  · intro angles
    rw [h2 angles 4 (by norm_num)]
    have ht : (4 : ℤ).toNat = 4 := rfl
    rw [ht]
    have hr4 : List.range 4 = [0, 1, 2, 3] := by decide
    rw [hr4]
    simp [List.getD_cons_zero, List.getD_cons_succ]

/-- Witness for C8: the identity part instantiated at `n = 1` on a
concrete 4-angle array. -/
theorem floret_claim_C8_w :
    generate_swinging_scan ([-2, -1, 0, 1] : List ℚ) 1 =
      List.range ([-2, -1, 0, 1] : List ℚ).length :=
  floret_claim_C8.1 [-2, -1, 0, 1] 1 (by decide)

/-- C5 counterexample: a call with `order_by = "bogus"` (outside the
enumerated set) does not fail — it returns a full result, so no
ConfigurationError is raised. -/
theorem floret_claim_C5_cx :
    (generate_scan 0 (-2) 2 (some 1) none "symmetric" 0 1 1 0 1 "bogus"
      true).isSome = true := by
  with_unfolding_all decide

/-- C5 (amended): `generate_scan` performs no validation of `order_by`;
every value other than `"angle"` falls through to the `"position"`
flatten path of `generate_final_order`, and the call returns normally
with the same result as `order_by = "position"`. -/
theorem floret_claim_C5 (z lo hi : ℚ) (s? : Option ℚ) (k? : Option ℕ)
    (mode : String) (symmetry : ℕ) (stepnum : ℤ) (nhelix : ℕ)
    (pmin pmax : ℤ) (order_by : String) (ip : Bool)
    (h : order_by ≠ "angle") :
    generate_scan z lo hi s? k? mode symmetry stepnum nhelix pmin pmax
      order_by ip =
    generate_scan z lo hi s? k? mode symmetry stepnum nhelix pmin pmax
      "position" ip := by
  have hfo : ∀ A P : List (List ℚ), generate_final_order A P order_by ip =
      generate_final_order A P "position" ip := by
    intro A P
    rw [final_order_other A P order_by ip h,
      final_order_other A P "position" ip (by decide)]
  unfold generate_scan
  simp only [hfo]

/-- Witness for C5: the amended claim at `order_by = "bogus"`. -/
theorem floret_claim_C5_w :
    generate_scan 0 (-2) 2 (some 1) none "symmetric" 0 1 1 0 1 "bogus" true =
      generate_scan 0 (-2) 2 (some 1) none "symmetric" 0 1 1 0 1 "position"
        true :=
  floret_claim_C5 0 (-2) 2 (some 1) none "symmetric" 0 1 1 0 1 "bogus" true
    (by decide)

/-- C10: whenever `symmetry ≥ 2` and the final batch size
`2^(symmetry-2)` exceeds `⌊N/2⌋` for the `N` generated angles, the
internal `shuffle_array` precondition check fails and
`generate_scan` with `mode = "symmetric"` aborts with an error before
returning any result, even though every stated parameter constraint is
satisfied. -/
theorem floret_claim_C10 (z lo hi : ℚ) (s? : Option ℚ) (k? : Option ℕ)
    (symmetry : ℕ) (stepnum : ℤ) (nhelix : ℕ) (pmin pmax : ℤ) (ob : String)
    (ip : Bool) (angles : List ℚ)
    (hang : generate_initial_angles z lo hi s? k? = some angles)
    (h2 : 2 ≤ symmetry) (h3 : angles.length / 2 < 2 ^ (symmetry - 2)) :
    generate_scan z lo hi s? k? "symmetric" symmetry stepnum nhelix pmin pmax
      ob ip = none := by
  simp only [generate_scan, String.reduceEq, reduceIte, true_or, true_and]
  split_ifs with hg
  · rw [hang, Option.some_bind]
    have hN : 0 < angles.length := List.length_pos.mpr (gia_some_ne_nil hang)
    simp only [generate_initial_positions, if_pos (⟨hg.1, hN⟩ :
      0 < nhelix ∧ 0 < angles.length), Option.some_bind]
    rw [dose_none angles _ symmetry h2 h3, Option.none_bind]
  · rfl

/-- Witness for C10: a 4-angle step-based configuration with
`symmetry = 4`, whose final batch size `2^2 = 4` exceeds `⌊4/2⌋ = 2`. -/
theorem floret_claim_C10_w :
    generate_scan 0 (-2) 2 (some 1) none "symmetric" 4 1 1 0 1 "angle" true =
      none :=
  floret_claim_C10 0 (-2) 2 (some 1) none 4 1 1 0 1 "angle" true
    [-2, -1, 0, 1] (by with_unfolding_all decide) (by decide) (by decide)

/-- C4 counterexample: for the count-based configuration
`z = 1, lo = -2, hi = 2, num_tilt_angles = 4, symmetry = 1`, the first
angle of the returned acquisition order is `0`, not the zero tilt offset
`tilt_angle_zero = 1`: the reference angle actually used is the middle
element `angles[N//2]` of the generated array, which for count-based
configurations is unrelated to `tilt_angle_zero`. -/
theorem floret_claim_C4_cx :
    (generate_scan 1 (-2) 2 none (some 4) "symmetric" 1 1 1 0 1 "angle"
      true).map (fun r => r.2.head?) = some (some 0) ∧ (0 : ℚ) ≠ 1 := by
  constructor
  · with_unfolding_all decide
  · with_unfolding_all decide

/-- C4 (amended): for every step-based configuration of `generate_scan`
with `mode = "symmetric"` and `symmetry ≥ 1`, the reference angle — the
middle generated angle `angles[N//2]` — equals `tilt_angle_zero`, so the
first angle of the returned acquisition order equals `tilt_angle_zero`;
for count-based configurations the reference is the middle of the range
and the scan need not start at `tilt_angle_zero`. -/
theorem floret_claim_C4 (z lo hi s : ℚ) (symmetry : ℕ) (stepnum : ℤ)
    (nhelix : ℕ) (pmin pmax : ℤ) (ob : String) (ip : Bool) (p a : List ℚ)
    (hsym : 1 ≤ symmetry)
    (h : generate_scan z lo hi (some s) none "symmetric" symmetry stepnum
      nhelix pmin pmax ob ip = some (p, a)) :
    a.head? = some z := by
  obtain ⟨angles, positions, order, grids, hang, hpos, hord, hgrids, hp2,
    ha2⟩ := generate_scan_symmetric_inv h
  obtain ⟨A, P⟩ := grids
  obtain ⟨⟨hg1, hg2, -, -⟩, hfin⟩ := gia_step_inv hang
  obtain ⟨hlt, hs, hleq, hnil, -, -⟩ := finishAngles_inv hfin
  subst hleq
  have hm0 : (0 : ℚ) ≤ maxTilt z lo hi := le_min (by linarith) (by linarith)
  obtain ⟨hmid, hidx⟩ := step_mid hs hlt hm0
  rw [hmid] at hord
  obtain ⟨h0, t, hsort_eq, hz0⟩ := sorted_head_dev
    (arangeQ (stepLo z lo hi s) (stepHi z lo hi s) s) z _ hidx hmid
  simp only [generate_dose_symmetric_scan,
    if_pos (show 0 < symmetry by omega)] at hord
  have hhead := (shuffleLoop_inv hord).2
  rw [hsort_eq] at hhead
  have hA2head : (order.map (fun i =>
      (arangeQ (stepLo z lo hi s) (stepHi z lo hi s) s).getD i 0)).head? =
      some z := by
    rw [List.head?_map, hhead]
    show some ((arangeQ (stepLo z lo hi s) (stepHi z lo hi s) s).getD h0 0) =
      some z
    rw [hz0]
  have hne : order.map (fun i =>
      (arangeQ (stepLo z lo hi s) (stepHi z lo hi s) s).getD i 0) ≠ [] := by
    intro hcon
    rw [hcon] at hA2head
    simp at hA2head
  have hAhead := shifted_head hgrids
  rw [ha2, final_order_head A P _ ob ip hAhead hne]
  exact hA2head

/-- Witness for C4: the step-based configuration
`z = 0, lo = -2, hi = 2, s = 1, symmetry = 1` returns the acquisition
order `[0, -1, 1, -2]`, whose first angle is `tilt_angle_zero = 0`. -/
theorem floret_claim_C4_w : ([0, -1, 1, -2] : List ℚ).head? = some 0 :=
  floret_claim_C4 0 (-2) 2 1 1 1 1 0 1 "angle" true [0, 0, 0, 0]
    [0, -1, 1, -2] (by decide) (by with_unfolding_all decide)

/-- C9: `generate_shifted_positions` returns angle and position grids of
identical shape `num_shifts × N`; `generate_final_order` returns two
flat sequences of length `num_shifts × N` in both `order_by` branches
with or without interleaving; and `generate_scan` returns two flat
sequences of that length. -/
theorem floret_claim_C9 :
    (∀ (angles positions : List ℚ) (pmin pmax : ℤ) (A P : List (List ℚ)),
        generate_shifted_positions angles positions pmin pmax = some (A, P) →
        A.length = (pmax - pmin).toNat ∧ P.length = (pmax - pmin).toNat ∧
          (∀ r ∈ A, r.length = angles.length) ∧
          (∀ r ∈ P, r.length = angles.length)) ∧
    (∀ (A P : List (List ℚ)) (d N : ℕ) (ob : String) (ip : Bool), 0 < d →
        A.length = d → P.length = d → (∀ r ∈ A, r.length = N) →
        (∀ r ∈ P, r.length = N) →
        (generate_final_order A P ob ip).1.length = d * N ∧
          (generate_final_order A P ob ip).2.length = d * N) ∧
    (∀ (z lo hi : ℚ) (s? : Option ℚ) (k? : Option ℕ) (mode : String)
        (symmetry : ℕ) (stepnum : ℤ) (nhelix : ℕ) (pmin pmax : ℤ)
        (ob : String) (ip : Bool) (angles p a : List ℚ),
        generate_initial_angles z lo hi s? k? = some angles →
        generate_scan z lo hi s? k? mode symmetry stepnum nhelix pmin pmax
          ob ip = some (p, a) →
        p.length = (pmax - pmin).toNat * angles.length ∧
          a.length = (pmax - pmin).toNat * angles.length) := by
  refine ⟨?_, ?_, ?_⟩
  · intro angles positions pmin pmax A P h
    exact shifted_shapes h
  · intro A P d N ob ip hd hAl hPl hAr hPr
    exact final_order_lengths A P d N ob ip hAl hPl hAr hPr hd
  · intro z lo hi s? k? mode symmetry stepnum nhelix pmin pmax ob ip angles
      p a hang h
    obtain ⟨angles2, positions, order, grids, hang2, hpos, hperm, hpp,
      hgrids, hp2, ha2⟩ := generate_scan_inv h
    obtain rfl : angles = angles2 := by
      rw [hang2] at hang
      exact (Option.some_injective _ hang).symm
    obtain ⟨A, P⟩ := grids
    obtain ⟨hAl, hPl, hAr, hPr⟩ := shifted_shapes hgrids
    have hmaplen : (order.map (fun i => angles.getD i 0)).length =
        angles.length := by
      rw [List.length_map, hperm.length_eq, List.length_range]
    rw [hmaplen] at hAr hPr
    have hd : 0 < (pmax - pmin).toNat := by omega
    obtain ⟨h1len, h2len⟩ := final_order_lengths A P ((pmax - pmin).toNat)
      angles.length ob ip hAl hPl hAr hPr hd
    rw [hp2, ha2]
    exact ⟨h2len, h1len⟩

/-- Witness for C9: the shifted-positions part instantiated on a
2-angle, 2-shift configuration. -/
theorem floret_claim_C9_w :
    ([[1, 2], [1, 2]] : List (List ℚ)).length = ((2 : ℤ) - 0).toNat ∧
      ([[0, 0], [1, 1]] : List (List ℚ)).length = ((2 : ℤ) - 0).toNat ∧
      (∀ r ∈ ([[1, 2], [1, 2]] : List (List ℚ)),
        r.length = ([1, 2] : List ℚ).length) ∧
      (∀ r ∈ ([[0, 0], [1, 1]] : List (List ℚ)),
        r.length = ([1, 2] : List ℚ).length) :=
  floret_claim_C9.1 [1, 2] [0, 0] 0 2 [[1, 2], [1, 2]] [[0, 0], [1, 1]]
    (by with_unfolding_all decide)

end Floret
